import Mathlib

/-!
Verification of the retrieval core of the `chatbot11guidingversion` server.

The JavaScript source consists of `src/server.js` (the `AISearchEngine` class:
corpus load, cosine-similarity search, context aggregation, page-range
compression) and an ingestion script (`DocumentProcessor`: per-page reading of
PDF text, paragraph chunking with a token budget).

Modelling conventions:
* JavaScript numbers are idealised as elements of a linear ordered field `R`
  (instantiated at `ℝ` for the analytic claims and at `ℚ` for executable
  witnesses).  The IEEE special values reachable in this code are modelled by
  `JsNumR` (`NaN` and the infinities arise only from division by an exact
  zero denominator, which is the only non-real case the idealised pipeline
  can produce).
* JavaScript strings are Lean `String`s (in this toolchain a `String` is a
  packed `List Char`).
* `Array.prototype.sort` with the comparators used in the source (all of the
  shape `(a, b) => k(b) - k(a)` or `(a, b) => a - b`) is modelled by a stable
  insertion sort keeping `a` before `b` exactly when the comparator does not
  return a positive number.
* External collaborators (OpenAI embedding calls, `pdf-parse`, the file
  system, the CSV parser) are modelled as inputs: a query arrives as its
  embedding vector, a PDF file as its extracted text, the catalog as its
  parsed record list.  `Math.sqrt` is passed as an explicit function
  parameter `sqrtFn` so that the pipeline stays executable; the analytic
  claims instantiate it with `Real.sqrt`.
-/

/-- The JavaScript number values reachable in this program: ordinary (ideal)
reals plus the special values produced by dividing by an exact zero. -/
inductive JsNumR (R : Type) where
  | real (x : R)
  | posInf
  | negInf
  | nan
deriving DecidableEq

section NumOps

variable {R : Type} [LinearOrderedField R]

/-- JavaScript division `x / y` on ideal reals: `0/0` is `NaN`, `x/0` for
`x ≠ 0` is a signed infinity, otherwise exact division. -/
def jsDivNum (x y : R) : JsNumR R :=
  if y = 0 then
    if x = 0 then JsNumR.nan else if 0 < x then JsNumR.posInf else JsNumR.negInf
  else JsNumR.real (x / y)

/-- JavaScript subtraction on `JsNumR`, used only inside sort comparators. -/
def jsSub : JsNumR R → JsNumR R → JsNumR R
  | JsNumR.nan, _ => JsNumR.nan
  | _, JsNumR.nan => JsNumR.nan
  | JsNumR.real a, JsNumR.real b => JsNumR.real (a - b)
  | JsNumR.real _, JsNumR.posInf => JsNumR.negInf
  | JsNumR.real _, JsNumR.negInf => JsNumR.posInf
  | JsNumR.posInf, JsNumR.real _ => JsNumR.posInf
  | JsNumR.posInf, JsNumR.posInf => JsNumR.nan
  | JsNumR.posInf, JsNumR.negInf => JsNumR.posInf
  | JsNumR.negInf, JsNumR.real _ => JsNumR.negInf
  | JsNumR.negInf, JsNumR.posInf => JsNumR.negInf
  | JsNumR.negInf, JsNumR.negInf => JsNumR.nan

/-- Whether a comparator result counts as "positive" for `Array.sort`
(`NaN` does not). -/
def jsPosQ : JsNumR R → Bool
  | JsNumR.real x => decide (0 < x)
  | JsNumR.posInf => true
  | _ => false

/-- `Math.max` on `JsNumR`: `NaN` is absorbing, otherwise the larger value. -/
def jsMax : JsNumR R → JsNumR R → JsNumR R
  | JsNumR.nan, _ => JsNumR.nan
  | _, JsNumR.nan => JsNumR.nan
  | JsNumR.posInf, _ => JsNumR.posInf
  | _, JsNumR.posInf => JsNumR.posInf
  | JsNumR.negInf, b => b
  | a, JsNumR.negInf => a
  | JsNumR.real a, JsNumR.real b => JsNumR.real (max a b)

end NumOps

section StableSort

variable {α : Type}

/-- Insert `x` (an element occurring earlier in the input) into an already
sorted tail, keeping it before the first element it may precede. -/
def insertSorted (le : α → α → Bool) (x : α) : List α → List α
  | [] => [x]
  | y :: ys => if le x y then x :: y :: ys else y :: insertSorted le x ys

/-- Stable sort modelling `Array.prototype.sort` with a comparator `c`:
`le a b` holds exactly when `c a b` is not positive, so equal (and
incomparable) elements keep their original relative order. -/
def sortJs (le : α → α → Bool) : List α → List α
  | [] => []
  | x :: xs => insertSorted le x (sortJs le xs)

end StableSort

/-- The whitespace class of the JavaScript regexes and `String.trim` (the
ASCII part, which is all this corpus can contain). -/
def isJsWs (c : Char) : Bool :=
  c = ' ' || c = '\t' || c = '\n' || c = '\r' || c = Char.ofNat 11 || c = Char.ofNat 12

/-- `String.prototype.trim`: drop whitespace from both ends. -/
def jsTrim (s : String) : String :=
  String.mk (((s.data.dropWhile isJsWs).reverse.dropWhile isJsWs).reverse)

/-- Split a character list at every occurrence of the character `sep`,
modelling `String.prototype.split` with a single-character pattern. -/
def splitCharAux (sep : Char) : List Char → List Char → List String
  | [], acc => [String.mk acc.reverse]
  | c :: rest, acc =>
    if c = sep then String.mk acc.reverse :: splitCharAux sep rest []
    else splitCharAux sep rest (c :: acc)

/-- `text.split(/\f/)` from `readDocuments` (`\f` is the page delimiter). -/
def splitFormFeed (s : String) : List String :=
  splitCharAux (Char.ofNat 12) s.data []

/-- `str.endsWith(suffix)`. -/
def jsEndsWith (s suffix : String) : Bool :=
  decide (s.data.reverse.take suffix.data.length = suffix.data.reverse)

/-- A page-range token as pushed by `createPageRanges` (`server.js:161-185`):
a single page is pushed as the bare number `rangeStart`, a run of consecutive
pages as the template string `` `${rangeStart}-${prev}` ``. -/
inductive RangeToken where
  | num (n : Nat)
  | str (s : String)
deriving DecidableEq

/-- The flush-and-advance loop of `createPageRanges`, carrying the start of
the current run and the previous page seen. -/
def rangesLoop (rangeStart prev : Nat) : List Nat → List RangeToken
  | [] =>
    if rangeStart = prev then [RangeToken.num rangeStart]
    else [RangeToken.str (Nat.repr rangeStart ++ "-" ++ Nat.repr prev)]
  | p :: rest =>
    if p = prev + 1 then rangesLoop rangeStart p rest
    else
      (if rangeStart = prev then RangeToken.num rangeStart
       else RangeToken.str (Nat.repr rangeStart ++ "-" ++ Nat.repr prev)) ::
        rangesLoop p p rest

/-- `createPageRanges(pages)` (`server.js:161-185`): compress an ascending
list of page numbers into tokens, collapsing consecutive runs. -/
def createPageRanges : List Nat → List RangeToken
  | [] => []
  | p :: rest => rangesLoop p p rest

/-- One entry of the `metadata` container of the persisted corpus artifact
(written by `saveEmbeddings` as `(source, page, tokens)`); the runtime only
reads `source` and `page`.  `source = none` models an entry without a usable
`source` field — in particular the `\x7b\x7d` default substituted by
`this.chunkMetadata[idx] || \x7b\x7d` for an out-of-range index.  Every entry the
ingestion actually writes carries a numeric page, and `page` is only ever
read after the `source` check succeeds. -/
structure ChunkMeta where
  source : Option String
  page : Nat
deriving DecidableEq

/-- The `\x7b\x7d` default used for a missing metadata entry. -/
def emptyMeta : ChunkMeta := ⟨none, 0⟩

/-- One parsed row of `metadata.csv`; only the `name` column is read
(`none` models a row without that column). -/
structure CsvRec where
  name : Option String
deriving DecidableEq

/-- A similarity hit as built inside `findSimilarContent`
(`server.js:205-210`): score, chunk text, chunk metadata. -/
structure Hit (R : Type) where
  score : JsNumR R
  text : String
  metadata : ChunkMeta
deriving DecidableEq

/-- The mutable state of `AISearchEngine` (`server.js:46-53`): the three
index-aligned corpus containers plus the catalog map `metadata`
(document id string → CSV record). -/
structure Engine (R : Type) where
  embeddings : List (List R)
  texts : List String
  chunkMetadata : List ChunkMeta
  metadata : List (String × CsvRec)

section EngineDefs

variable {R : Type} [LinearOrderedField R]

/-- `vecA.reduce((sum, a, i) => sum + a * vecB[i], 0)`: the dot product of
two vectors (the source only evaluates it on equal-length vectors). -/
def dotProduct (vecA vecB : List R) : R :=
  (List.zipWith (fun a b => a * b) vecA vecB).sum

/-- `cosineSimilarity(vecA, vecB)` (`server.js:230-235`): dot product over
the product of Euclidean norms, with JavaScript division semantics (a zero
vector makes the denominator zero and the numerator zero, hence `NaN`).
`sqrtFn` abstracts `Math.sqrt`. -/
def cosineSimilarity (sqrtFn : R → R) (vecA vecB : List R) : JsNumR R :=
  jsDivNum (dotProduct vecA vecB)
    (sqrtFn (dotProduct vecA vecA) * sqrtFn (dotProduct vecB vecB))

/-- The `this.embeddings.map((emb, idx) => ...)` / `.filter(item => item !== null)`
stage of `findSimilarContent` (`server.js:198-216`): entries whose
dimensionality differs from the query are dropped; kept entries get the
cosine score, `this.texts[idx] || ''` and `this.chunkMetadata[idx] || \x7b\x7d`. -/
def scanEmb (sqrtFn : R → R) (queryEmbedding : List R) (texts : List String)
    (metas : List ChunkMeta) : Nat → List (List R) → List (Hit R)
  | _, [] => []
  | idx, emb :: rest =>
    if emb.length = queryEmbedding.length then
      ⟨cosineSimilarity sqrtFn queryEmbedding emb,
        texts.getD idx (""), metas.getD idx emptyMeta⟩ ::
        scanEmb sqrtFn queryEmbedding texts metas (idx + 1) rest
    else scanEmb sqrtFn queryEmbedding texts metas (idx + 1) rest

/-- The comparator `(a, b) => b.score - a.score`: keep `a` before `b` when
the comparator result is not positive. -/
def hitLe (a b : Hit R) : Bool := !(jsPosQ (jsSub b.score a.score))

/-- `findSimilarContent(queryEmbedding, sourceName = null)`
(`server.js:187-228`): empty result on an empty index, otherwise score every
stored entry, optionally filter by exact source name, sort by score
descending and keep the top 5. -/
def findSimilarContent (sqrtFn : R → R) (e : Engine R) (queryEmbedding : List R)
    (sourceName : Option String) : List (Hit R) :=
  if e.embeddings.isEmpty then []
  else
    let similarities := scanEmb sqrtFn queryEmbedding e.texts e.chunkMetadata 0 e.embeddings
    let results := match sourceName with
      | none => similarities
      | some s => similarities.filter (fun item => decide (item.metadata.source = some s))
    (sortJs hitLe results).take 5

/-- `/document(\d+)\.pdf/` matched at the head of a character list:
the literal `document`, a maximal non-empty digit run, then `.pdf`. -/
def matchDocAt (l : List Char) : Option String :=
  if l.take 8 = ("document").data then
    let after := l.drop 8
    let ds := after.takeWhile Char.isDigit
    if ds ≠ [] ∧ (after.drop ds.length).take 4 = (".pdf").data then
      some (String.mk ds)
    else none
  else none

/-- Left-to-right scan for the first match of `/document(\d+)\.pdf/`. -/
def extractDocIdAux : List Char → Option String
  | [] => none
  | c :: rest =>
    match matchDocAt (c :: rest) with
    | some d => some d
    | none => extractDocIdAux rest

/-- `source.match(/document(\d+)\.pdf/)?.[1]` (`server.js:110`): the digit
capture of the first match, if any. -/
def extractDocId (s : String) : Option String := extractDocIdAux s.data

/-- One chunk stored inside a document group (`server.js:123-127`). -/
structure GChunk (R : Type) where
  text : String
  page : Nat
  score : JsNumR R
deriving DecidableEq

/-- One value of the `resultsByDoc` accumulator (`server.js:115-120`). -/
structure DocGroup (R : Type) where
  id : String
  name : String
  chunks : List (GChunk R)
  highestScore : JsNumR R
deriving DecidableEq

/-- `this.metadata.get(docId)` followed by `metadata?.name || 'Unknown'`
(`server.js:114-117`). -/
def catalogName (cat : List (String × CsvRec)) (docId : String) : String :=
  match cat.lookup docId with
  | none => "Unknown"
  | some rec =>
    match rec.name with
    | none => "Unknown"
    | some n => if n = "" then "Unknown" else n

/-- Association-list lookup for the `resultsByDoc` object. -/
def lookupGroup (docId : String) : List (String × DocGroup R) → Option (DocGroup R)
  | [] => none
  | (k, g) :: rest => if k = docId then some g else lookupGroup docId rest

/-- In-place update of one key of the `resultsByDoc` object. -/
def updateGroup (docId : String) (f : DocGroup R → DocGroup R) :
    List (String × DocGroup R) → List (String × DocGroup R)
  | [] => []
  | (k, g) :: rest =>
    if k = docId then (k, f g) :: rest else (k, g) :: updateGroup docId f rest

/-- The body of `similarContent.forEach(item => ...)` (`server.js:107-130`):
skip hits with a falsy `metadata.source` or an unresolvable document id;
otherwise create the group on first sight (with catalog display name and
`highestScore: 0`), push the hit's chunk and fold its score into the group
maximum with `Math.max`. -/
def groupStep (cat : List (String × CsvRec)) (acc : List (String × DocGroup R))
    (item : Hit R) : List (String × DocGroup R) :=
  match item.metadata.source with
  | none => acc
  | some src =>
    if src = "" then acc
    else
      match extractDocId src with
      | none => acc
      | some docId =>
        let withGroup := match lookupGroup docId acc with
          | some _ => acc
          | none => acc ++ [(docId, ⟨docId, catalogName cat docId, [], JsNumR.real 0⟩)]
        updateGroup docId
          (fun g => ⟨g.id, g.name, g.chunks ++ [⟨item.text, item.metadata.page, item.score⟩],
            jsMax g.highestScore item.score⟩) withGroup

/-- Digit-string to number, for the integer-index ordering of object keys. -/
def keyToNat (s : String) : Nat :=
  s.data.foldl (fun n c => n * 10 + (c.toNat - 48)) 0

/-- Whether a string is an array-index property key (canonical decimal,
below `2^32 - 1`); such keys enumerate first, in ascending numeric order. -/
def isArrayIndex (s : String) : Bool :=
  decide (s.data ≠ []) && s.data.all Char.isDigit &&
    (decide (s = "0") || decide (s.data.head? ≠ some ('0'))) &&
    decide (keyToNat s < 4294967295)

/-- `Object.values(resultsByDoc)`: array-index keys first in ascending
numeric order, then the remaining keys in insertion order. -/
def objectValues (l : List (String × DocGroup R)) : List (DocGroup R) :=
  (sortJs (fun a b => decide (keyToNat a.1 ≤ keyToNat b.1))
      (l.filter (fun kv => isArrayIndex kv.1)) ++
    l.filter (fun kv => !isArrayIndex kv.1)).map Prod.snd

/-- Comparator `(a, b) => b.highestScore - a.highestScore`. -/
def groupLe (a b : DocGroup R) : Bool := !(jsPosQ (jsSub b.highestScore a.highestScore))

/-- Comparator `(a, b) => b.score - a.score` on stored chunks. -/
def chunkLe (a b : GChunk R) : Bool := !(jsPosQ (jsSub b.score a.score))

/-- `[...new Set(pages)]`: first occurrence kept, insertion order. -/
def dedupFirst (l : List Nat) : List Nat :=
  l.foldl (fun acc p => if p ∈ acc then acc else acc ++ [p]) []

/-- `Array.prototype.join(sep)`. -/
def joinWith (sep : String) : List String → String
  | [] => ""
  | [s] => s
  | s :: t :: rest => s ++ sep ++ joinWith sep (t :: rest)

/-- The flat result record built at `server.js:146-152`. -/
structure Interview (R : Type) where
  id : String
  name : String
  pages : List RangeToken
  relevanceScore : JsNumR R
  text : String
deriving DecidableEq

/-- One element of the array returned by `findRelevantContext`: the
`Interview` record wrapped in an object with the single key `interview`
(`server.js:145-153`). -/
structure ContextItem (R : Type) where
  interview : Interview R
deriving DecidableEq

/-- The `.map(doc => ...)` body (`server.js:135-154`): keep the three
highest-scoring chunks, deduplicate and sort their pages ascending,
compress to ranges, and join the chunk texts with a blank line. -/
def mkContextItem (g : DocGroup R) : ContextItem R :=
  let topChunks := (sortJs chunkLe g.chunks).take 3
  let pages := sortJs (fun a b => decide (a ≤ b))
    (dedupFirst (topChunks.map (fun c => c.page)))
  ⟨⟨g.id, g.name, createPageRanges pages, g.highestScore,
    joinWith ("\n\n") (topChunks.map (fun c => c.text))⟩⟩

/-- The aggregation stage of `findRelevantContext` (`server.js:104-154`):
group the hits by resolved document id, order the groups by maximum score
descending, keep the top 2 and build the result records. -/
def aggregateHits (cat : List (String × CsvRec)) (hits : List (Hit R)) :
    List (ContextItem R) :=
  ((sortJs groupLe (objectValues (hits.foldl (groupStep cat) []))).take 2).map
    mkContextItem

/-- `findRelevantContext(question)` (`server.js:95-159`), with the external
embedding call already performed (`questionEmbedding` is the vector the
provider returned for the question). -/
def findRelevantContext (sqrtFn : R → R) (e : Engine R)
    (questionEmbedding : List R) : List (ContextItem R) :=
  let similarContent := findSimilarContent sqrtFn e questionEmbedding none
  if similarContent.isEmpty then [] else aggregateHits e.metadata similarContent

end EngineDefs

/-- A JavaScript value, used to state claims about the *shape* of the
objects the engine returns. -/
inductive JsVal (R : Type) where
  | str (s : String)
  | num (n : JsNumR R)
  | arr (elems : List (JsVal R))
  | obj (fields : List (String × JsVal R))

/-- The property keys of a JavaScript object value. -/
def jsKeys {R : Type} : JsVal R → List String
  | JsVal.obj fields => fields.map Prod.fst
  | _ => []

section JsView

variable {R : Type} [LinearOrderedField R]

/-- A page-range token as a JavaScript value: a bare number or a string. -/
def RangeToken.toJs : RangeToken → JsVal R
  | RangeToken.num n => JsVal.num (JsNumR.real (n : R))
  | RangeToken.str s => JsVal.str s

/-- The object literal of `server.js:146-152`, field order as written. -/
def Interview.toJs (iv : Interview R) : JsVal R :=
  JsVal.obj [("id", JsVal.str iv.id), ("name", JsVal.str iv.name),
    ("pages", JsVal.arr (iv.pages.map RangeToken.toJs)),
    ("relevanceScore", JsVal.num iv.relevanceScore),
    ("text", JsVal.str iv.text)]

/-- The object literal of `server.js:145-153`: the single-key wrapper
actually returned by `findRelevantContext`. -/
def ContextItem.toJs (c : ContextItem R) : JsVal R :=
  JsVal.obj [("interview", c.interview.toJs)]

end JsView

/-- The parsed persisted corpus artifact `embeddings.json` in the case where
`data.embeddings` exists and is an array (`server.js:69-75`); `texts` and
`metadata` stay optional and default to `[]`. -/
structure EmbArtifact (R : Type) where
  embeddings : List (List R)
  texts : Option (List String)
  metadata : Option (List ChunkMeta)

section LoadDefs

variable {R : Type} [LinearOrderedField R]

/-- The state the `AISearchEngine` constructor builds (`server.js:47-53`). -/
def initialEngine : Engine R := ⟨[], [], [], []⟩

/-- `records.forEach((record, index) => ...)` (`server.js:83-86`): catalog
keys are 1-based positions rendered as decimal strings. -/
def buildCatalog : Nat → List CsvRec → List (String × CsvRec)
  | _, [] => []
  | i, rec :: rest => (Nat.repr i, rec) :: buildCatalog (i + 1) rest

/-- `initialize()` (`server.js:55-93`) as a state transformer on the engine.
`artifact = none` models every failure before the corpus assignment (missing
file, JSON parse error, `data.embeddings` absent or not an array): the
method throws and the fields keep their previous values.  `csvRecords =
none` models a `metadata.csv` read/parse failure, which throws *after* the
corpus containers were assigned.  The boolean reports whether the returned
promise resolved (`true`) or rejected (`false`). -/
def loadEngine (e : Engine R) (artifact : Option (EmbArtifact R))
    (csvRecords : Option (List CsvRec)) : Engine R × Bool :=
  match artifact with
  | none => (e, false)
  | some data =>
    let e1 : Engine R :=
      ⟨data.embeddings, data.texts.getD [], data.metadata.getD [], e.metadata⟩
    match csvRecords with
    | none => (e1, false)
    | some recs => (⟨e1.embeddings, e1.texts, e1.chunkMetadata, buildCatalog 1 recs⟩, true)

/-- Server startup (`server.js:254-255`):
`searchEngine.initialize().catch(console.error)` — a rejected load is only
logged, and the engine object stays in service in whatever state the failed
`initialize` left it. -/
def startEngine (artifact : Option (EmbArtifact R))
    (csvRecords : Option (List CsvRec)) : Engine R :=
  (loadEngine initialEngine artifact csvRecords).1

end LoadDefs

/-! ## Ingestion (the `DocumentProcessor` of the unnamed script) -/

/-- One per-page document record as pushed by `readDocuments`
(`part_000:54-59`): trimmed page text, source file name, 1-based page. -/
structure IngDoc where
  text : String
  title : String
  page : Nat
deriving DecidableEq

/-- A chunk as pushed by `splitIntoChunks` (`part_000:84-106`): trimmed
buffer text, source title, page, and the token count of the *untrimmed*
buffer. -/
structure Chunk where
  text : String
  source : String
  page : Nat
  tokens : Nat
deriving DecidableEq

/-- One source file as seen by `readDocuments`: its directory name and the
text `pdf-parse` extracted (`none` models a read/parse error, which is
caught and skips the file). -/
structure PdfFile where
  name : String
  parsed : Option String

/-- Greedy match of `/\n\s*\n/` at a position whose character is `\n`:
the regex takes the longest whitespace run it can while still ending the
match on a final `\n`, so the match extends to the *last* newline of the
whitespace run following the first `\n`.  Returns the index of that last
newline inside the run, if the run contains one. -/
def lastNlIdx (run : List Char) : Option Nat :=
  match run.reverse.findIdx? (fun c => c = '\n') with
  | some k => some (run.length - 1 - k)
  | none => none

/-- Fuel-driven scanner for `text.split(/\n\s*\n/)` (`part_000:77`).  The
fuel is only a termination device; it is always called with more fuel than
characters, so the `0` fallback is unreachable. -/
def splitParasGo : Nat → List Char → List Char → List String
  | 0, l, acc => [String.mk (acc.reverse ++ l)]
  | _ + 1, [], acc => [String.mk acc.reverse]
  | fuel + 1, c :: rest, acc =>
    if c = '\n' then
      match lastNlIdx (rest.takeWhile isJsWs) with
      | some i => String.mk acc.reverse :: splitParasGo fuel (rest.drop (i + 1)) []
      | none => splitParasGo fuel rest ('\n' :: acc)
    else splitParasGo fuel rest (c :: acc)

/-- `doc.text.split(/\n\s*\n/)`: the paragraph splitter of the chunker. -/
def splitParas (s : String) : List String :=
  splitParasGo (s.data.length + 1) s.data []

/-- The inner paragraph loop of `splitIntoChunks` (`part_000:79-97`) plus
the final flush (`part_000:99-106`), for one document.  `encode` abstracts
the external `gpt-3-encoder`'s token counter.  The buffer grows as
`currentChunk + '\n' + trimmedParagraph`; when the tentative count exceeds
`maxTokens` and the buffer is non-empty, the buffer is flushed as a chunk
and restarted from the current paragraph. -/
def chunkLoop (encode : String → Nat) (maxTokens : Nat) (title : String) (page : Nat) :
    List String → String → List Chunk
  | [], buf =>
    if jsTrim buf = "" then []
    else [⟨jsTrim buf, title, page, encode buf⟩]
  | para :: rest, buf =>
    if jsTrim para = "" then chunkLoop encode maxTokens title page rest buf
    else if maxTokens < encode (buf ++ "\n" ++ jsTrim para) ∧ buf ≠ "" then
      ⟨jsTrim buf, title, page, encode buf⟩ ::
        chunkLoop encode maxTokens title page rest (jsTrim para)
    else chunkLoop encode maxTokens title page rest (buf ++ "\n" ++ jsTrim para)

/-- `splitIntoChunks` restricted to one document: the buffer starts empty
for every document, so chunks never mix documents. -/
def chunksOfDoc (encode : String → Nat) (maxTokens : Nat) (doc : IngDoc) : List Chunk :=
  chunkLoop encode maxTokens doc.title doc.page (splitParas doc.text) ""

/-- `splitIntoChunks(documents, maxTokens = 500)` (`part_000:72-110`); the
caller uses the default `maxTokens = 500`. -/
def splitIntoChunks (encode : String → Nat) (documents : List IngDoc)
    (maxTokens : Nat) : List Chunk :=
  (documents.map (chunksOfDoc encode maxTokens)).flatten

/-- `pages.forEach((text, pageIndex) => ...)` (`part_000:54-59`): trim each
page text and record its 1-based position. -/
def pagesToDocs (name : String) : Nat → List String → List IngDoc
  | _, [] => []
  | i, t :: rest => ⟨jsTrim t, name, i + 1⟩ :: pagesToDocs name (i + 1) rest

/-- One iteration of the file loop of `readDocuments` (`part_000:40-70`):
non-`.pdf` names were filtered out, extraction failures are caught and skip
the file, otherwise the text splits into pages on `\f`. -/
def fileToDocs (f : PdfFile) : List IngDoc :=
  if jsEndsWith f.name (".pdf") then
    match f.parsed with
    | some txt => pagesToDocs f.name 0 (splitFormFeed txt)
    | none => []
  else []

/-- `readDocuments()` (`part_000:40-70`). -/
def readDocuments (files : List PdfFile) : List IngDoc :=
  (files.map fileToDocs).flatten

/-! ## Specification predicates and concrete inputs used by the claims -/

/-- `t` is a non-empty concatenation (with the `'\n'` separator the chunker
uses) of trimmed paragraphs drawn from the paragraph list `S`, finally
trimmed — i.e. `t` is a buffer the chunker can build from `S` alone. -/
def BuiltFromParas (S : List String) (t : String) : Prop :=
  ∃ ps, ps ≠ [] ∧ (∀ p ∈ ps, p ∈ S) ∧
    t = jsTrim (joinWith ("\n") (ps.map jsTrim))

/-- Invariant of the chunker's running buffer: empty, or built from
paragraphs of `S` (each non-blank after trimming), possibly carrying the
leading `'\n'` glued on when the buffer was still empty; a multi-paragraph
buffer was accepted by the token check, a single-paragraph buffer may be
oversized. -/
def BufSpec (S : List String) (encode : String → Nat) (maxTokens : Nat)
    (buf : String) : Prop :=
  buf = "" ∨
    ∃ ps, ps ≠ [] ∧ (∀ p ∈ ps, p ∈ S ∧ jsTrim p ≠ "") ∧
      (buf = joinWith ("\n") (ps.map jsTrim) ∨
        buf = "\n" ++ joinWith ("\n") (ps.map jsTrim)) ∧
      (encode buf ≤ maxTokens ∨ ps.length = 1)

/-- What the chunker guarantees of every chunk it emits for a page with
paragraph list `S`: correct tags, text built from `S`, and a token count
within budget unless the chunk is one single paragraph. -/
def ChunkSpec (S : List String) (maxTokens : Nat)
    (title : String) (page : Nat) (c : Chunk) : Prop :=
  c.source = title ∧ c.page = page ∧
    (∃ ps, ps ≠ [] ∧ (∀ p ∈ ps, p ∈ S ∧ jsTrim p ≠ "") ∧
      c.text = jsTrim (joinWith ("\n") (ps.map jsTrim)) ∧
      (c.tokens ≤ maxTokens ∨ ∃ p, ps = [p] ∧ c.text = jsTrim p))

/-- The "similarity score lies in `[-1, 1]`" predicate of the spec's
`SearchHit` data model; the special values `NaN` and `±Infinity` do not
satisfy it (in JavaScript every comparison with `NaN` is false). -/
def scoreInRange {R : Type} [LinearOrderedField R] : JsNumR R → Prop
  | JsNumR.real x => -1 ≤ x ∧ x ≤ 1
  | _ => False

/-- A stand-in for `Math.sqrt` in executable witnesses of the purely
combinatorial claims (their statements hold for every `sqrtFn`). -/
def idSqrt : ℚ → ℚ := fun x => x

/-- A small reachable engine state over `ℚ` (one stored chunk of
`document3.pdf`, catalog row 3 named Alice). -/
def demoEngine : Engine ℚ :=
  ⟨[[1]], ["hi"], [⟨some ("document3.pdf"), 2⟩], [("3", ⟨some ("Alice")⟩)]⟩

/-- Engine with stored vectors of two different dimensionalities. -/
def dimEngine : Engine ℚ :=
  ⟨[[1], [2, 3]], ["ha"], [⟨some ("document3.pdf"), 2⟩], []⟩

/-- Engine over `ℝ` whose only stored vector is the zero vector. -/
def zeroVecEngine : Engine ℝ := ⟨[[0]], [], [], []⟩

/-- Engine over `ℝ` whose only stored vector is the unit vector `[1]`. -/
def unitEngine : Engine ℝ := ⟨[[1]], [], [], []⟩

/-- The hit list of the spec's aggregation example: document ids
3, 3, 7 with scores 0.9, 0.8, 0.95. -/
def exampleHits : List (Hit ℚ) :=
  [⟨JsNumR.real (9/10), "tA", ⟨some ("document3.pdf"), 1⟩⟩,
   ⟨JsNumR.real (8/10), "tB", ⟨some ("document3.pdf"), 2⟩⟩,
   ⟨JsNumR.real (95/100), "tC", ⟨some ("document7.pdf"), 4⟩⟩]

/-- A single hit whose score is negative. -/
def negHit : Hit ℚ := ⟨JsNumR.real (-(1:ℚ)/2), "t", ⟨some ("document3.pdf"), 1⟩⟩

/-- A two-paragraph one-page document for the chunker witnesses. -/
def demoDoc : IngDoc := ⟨"aa\n\nbb", "t", 3⟩

/-- A one-file, one-page ingestion input for the pipeline witnesses. -/
def demoFiles : List PdfFile := [⟨"document1.pdf", some ("hello")⟩]

/-- A token counter for witnesses: the character count. -/
def lenEncode : String → Nat := fun s => s.length

section GroupSpecDefs

variable {R : Type} [LinearOrderedField R]

/-- The document id resolved for a hit by the grouping step: `none` exactly
when `groupStep` skips the hit (falsy `metadata.source` or no
`/document(\d+)\.pdf/` match). -/
def hitDocId (item : Hit R) : Option String :=
  match item.metadata.source with
  | none => none
  | some src => if src = "" then none else extractDocId src

/-- The relevance score the aggregation assigns to document id `docId`, as
a function of the full hit list: the scores of the hits resolving to
`docId`, in hit order, folded with `Math.max` from the initial
`highestScore: 0`. -/
def scoreFold (docId : String) (hits : List (Hit R)) : JsNumR R :=
  ((hits.filter (fun h => decide (hitDocId h = some docId))).map Hit.score).foldl
    jsMax (JsNumR.real 0)

/-- The score currently stored for key `k` in a `resultsByDoc` accumulator
(`highestScore: 0` when the key is absent). -/
def startScore (k : String) (acc : List (String × DocGroup R)) : JsNumR R :=
  match lookupGroup k acc with
  | some g => g.highestScore
  | none => JsNumR.real 0

/-- The chunk-push-and-max update `groupStep` applies to the group of the
hit being processed (`server.js:123-129`). -/
def groupUpd (item : Hit R) : DocGroup R → DocGroup R :=
  fun g => ⟨g.id, g.name, g.chunks ++ [⟨item.text, item.metadata.page, item.score⟩],
    jsMax g.highestScore item.score⟩

end GroupSpecDefs

/-! ## Helper lemmas -/

section SortLemmas

variable {α : Type}

theorem mem_insertSorted (le : α → α → Bool) (x a : α) :
    ∀ l : List α, a ∈ insertSorted le x l ↔ a = x ∨ a ∈ l := by
  intro l
  induction l with
  | nil => simp [insertSorted]
  | cons y ys ih =>
    by_cases h : le x y = true
    · simp [insertSorted, h]
    · simp only [insertSorted, if_neg h, List.mem_cons, ih]
      tauto

theorem mem_sortJs (le : α → α → Bool) (a : α) :
    ∀ l : List α, a ∈ sortJs le l ↔ a ∈ l := by
  intro l
  induction l with
  | nil => simp [sortJs]
  | cons x xs ih => simp [sortJs, mem_insertSorted, ih]

end SortLemmas

section DropWhileLemmas

variable {α : Type} (p : α → Bool)

theorem dropWhile_head?_false :
    ∀ (l : List α) (x : α), (l.dropWhile p).head? = some x → p x = false := by
  intro l
  induction l with
  | nil => intro x h; simp [List.dropWhile] at h
  | cons a t ih =>
    intro x h
    by_cases ha : p a = true
    · exact ih x (by simpa [List.dropWhile_cons, ha] using h)
    · rw [List.dropWhile_cons, if_neg ha] at h
      cases h
      simpa using ha

theorem getLast?_dropWhile :
    ∀ l : List α, l.dropWhile p ≠ [] → (l.dropWhile p).getLast? = l.getLast? := by
  intro l
  induction l with
  | nil => intro h; simp [List.dropWhile] at h
  | cons a t ih =>
    intro h
    by_cases ha : p a = true
    · rw [List.dropWhile_cons, if_pos ha] at h ⊢
      have ht : t ≠ [] := by
        intro he; rw [he] at h; simp [List.dropWhile] at h
      obtain ⟨b, u, rfl⟩ := List.exists_cons_of_ne_nil ht
      rw [List.getLast?_cons_cons]
      exact ih h
    · rw [List.dropWhile_cons, if_neg ha]

theorem dropWhile_eq_self_of_head :
    ∀ l : List α, (∀ x, l.head? = some x → p x = false) → l.dropWhile p = l := by
  intro l h
  cases l with
  | nil => simp [List.dropWhile]
  | cons a t => rw [List.dropWhile_cons, if_neg (by simp [h a rfl])]

end DropWhileLemmas

theorem jsTrim_data (s : String) :
    (jsTrim s).data = ((s.data.dropWhile isJsWs).reverse.dropWhile isJsWs).reverse := rfl

theorem jsTrim_mk (l : List Char) :
    jsTrim (String.mk l) = String.mk (((l.dropWhile isJsWs).reverse.dropWhile isJsWs).reverse) :=
  rfl

theorem jsTrim_ws_cons (c : Char) (hc : isJsWs c = true) (l : List Char) :
    jsTrim (String.mk (c :: l)) = jsTrim (String.mk l) := by
  rw [jsTrim_mk, jsTrim_mk, List.dropWhile_cons, if_pos hc]

theorem jsTrim_newline (s : String) : jsTrim ("\n" ++ s) = jsTrim s := by
  have h : ("\n" ++ s) = String.mk ('\n' :: s.data) := by
    apply String.ext
    rw [String.data_append]
    rfl
  have h2 : jsTrim (String.mk s.data) = jsTrim s := by cases s; rfl
  rw [h, jsTrim_ws_cons '\n' (by decide) s.data, h2]

theorem trimL_idem (l : List Char) :
    ((((((l.dropWhile isJsWs).reverse.dropWhile isJsWs).reverse).dropWhile
        isJsWs).reverse).dropWhile isJsWs).reverse =
      ((l.dropWhile isJsWs).reverse.dropWhile isJsWs).reverse := by
  set a := l.dropWhile isJsWs with ha
  set b := a.reverse.dropWhile isJsWs with hb
  have hbhead : ∀ x, b.head? = some x → isJsWs x = false := by
    intro x hx
    exact dropWhile_head?_false isJsWs a.reverse x (by rw [← hb]; exact hx)
  by_cases hbe : b = []
  · rw [hbe]
    simp [List.dropWhile]
  · have hrev : ∀ x, b.reverse.head? = some x → isJsWs x = false := by
      intro x hx
      rw [List.head?_reverse] at hx
      have h1 : b.getLast? = a.reverse.getLast? := by
        rw [hb]
        exact getLast?_dropWhile isJsWs a.reverse (by rw [← hb]; exact hbe)
      rw [h1, List.getLast?_reverse] at hx
      exact dropWhile_head?_false isJsWs l x (by rw [← ha]; exact hx)
    rw [dropWhile_eq_self_of_head isJsWs b.reverse hrev, List.reverse_reverse,
      dropWhile_eq_self_of_head isJsWs b hbhead]

theorem jsTrim_idem (s : String) : jsTrim (jsTrim s) = jsTrim s := by
  cases s with
  | mk l =>
    rw [jsTrim_mk, jsTrim_mk]
    exact congrArg String.mk (trimL_idem l)

theorem jsTrim_empty : jsTrim ("") = "" := rfl

theorem joinWith_singleton (sep x : String) : joinWith sep [x] = x := rfl

theorem joinWith_append_singleton (sep x : String) :
    ∀ l : List String, l ≠ [] → joinWith sep (l ++ [x]) = joinWith sep l ++ sep ++ x := by
  intro l
  induction l with
  | nil => intro h; exact absurd rfl h
  | cons a t ih =>
    intro _
    cases t with
    | nil => rfl
    | cons b u =>
      have h : joinWith sep ((a :: b :: u) ++ [x]) =
          a ++ sep ++ joinWith sep ((b :: u) ++ [x]) := rfl
      rw [h, ih (by simp), joinWith]
      simp [String.append_assoc]

theorem string_empty_append (s : String) : "" ++ s = s := by
  apply String.ext
  rw [String.data_append]
  rfl

/-- The emitted-chunk part of the buffer invariant: flushing a buffer that
satisfies `BufSpec` (and is non-empty) yields a chunk satisfying
`ChunkSpec`. -/
theorem flush_spec (S : List String) (encode : String → Nat) (maxTokens : Nat)
    (title : String) (page : Nat) (buf : String) (hne : buf ≠ "")
    (hbuf : BufSpec S encode maxTokens buf) :
    ChunkSpec S maxTokens title page ⟨jsTrim buf, title, page, encode buf⟩ := by
  rcases hbuf with hbe | ⟨ps, hps, hmem, hform, hsize⟩
  · exact absurd hbe hne
  refine ⟨rfl, rfl, ps, hps, hmem, ?_, ?_⟩
  · rcases hform with h | h
    · rw [h]
    · rw [h, jsTrim_newline]
  · rcases hsize with h | h
    · exact Or.inl h
    · refine Or.inr ?_
      obtain ⟨p, hp⟩ := List.length_eq_one.mp h
      refine ⟨p, hp, ?_⟩
      have hj : joinWith ("\n") (ps.map jsTrim) = jsTrim p := by rw [hp]; rfl
      rcases hform with hf | hf
      · rw [hf, hj, jsTrim_idem]
      · rw [hf, hj, jsTrim_newline, jsTrim_idem]

/-- Main invariant of the paragraph loop: starting from a buffer satisfying
`BufSpec`, every chunk the loop emits satisfies `ChunkSpec`. -/
theorem chunkLoop_spec (encode : String → Nat) (maxTokens : Nat) (title : String)
    (page : Nat) (S : List String) :
    ∀ (rest : List String) (buf : String), (∀ p ∈ rest, p ∈ S) →
      BufSpec S encode maxTokens buf →
      ∀ c ∈ chunkLoop encode maxTokens title page rest buf,
        ChunkSpec S maxTokens title page c := by
  intro rest
  induction rest with
  | nil =>
    intro buf _ hbuf c hc
    by_cases he : jsTrim buf = ""
    · simp [chunkLoop, he] at hc
    · simp only [chunkLoop, if_neg he, List.mem_singleton] at hc
      subst hc
      have hne : buf ≠ "" := by
        intro hbe
        rw [hbe, jsTrim_empty] at he
        exact he rfl
      exact flush_spec S encode maxTokens title page buf hne hbuf
  | cons q rest ih =>
    intro buf hmem hbuf c hc
    have hmemtail : ∀ p ∈ rest, p ∈ S := fun p hp => hmem p (List.mem_cons_of_mem q hp)
    have hqS : q ∈ S := hmem q (List.mem_cons_self q rest)
    by_cases ht : jsTrim q = ""
    · rw [chunkLoop, if_pos ht] at hc
      exact ih buf hmemtail hbuf c hc
    · by_cases hcond : maxTokens < encode (buf ++ "\n" ++ jsTrim q) ∧ buf ≠ ""
      · rw [chunkLoop, if_neg ht, if_pos hcond] at hc
        rcases List.mem_cons.mp hc with rfl | hc
        · exact flush_spec S encode maxTokens title page buf hcond.2 hbuf
        · refine ih (jsTrim q) hmemtail ?_ c hc
          refine Or.inr ⟨[q], by simp, ?_, ?_, Or.inr rfl⟩
          · intro p hp
            rw [List.mem_singleton] at hp
            subst hp
            exact ⟨hqS, ht⟩
          · exact Or.inl (by rw [List.map_singleton]; rfl)
      · rw [chunkLoop, if_neg ht, if_neg hcond] at hc
        refine ih (buf ++ "\n" ++ jsTrim q) hmemtail ?_ c hc
        by_cases hbe : buf = ""
        · subst hbe
          refine Or.inr ⟨[q], by simp, ?_, ?_, Or.inr rfl⟩
          · intro p hp
            rw [List.mem_singleton] at hp
            subst hp
            exact ⟨hqS, ht⟩
          · refine Or.inr ?_
            rw [List.map_singleton, joinWith_singleton, string_empty_append]
        · have hle : encode (buf ++ "\n" ++ jsTrim q) ≤ maxTokens := by
            by_contra hgt
            exact hcond ⟨Nat.lt_of_not_le (fun h => hgt (by exact h)), hbe⟩
          rcases hbuf with hbe2 | ⟨ps, hps, hmemps, hform, _⟩
          · exact absurd hbe2 hbe
          refine Or.inr ⟨ps ++ [q], by simp, ?_, ?_, Or.inl hle⟩
          · intro p hp
            rcases List.mem_append.mp hp with h | h
            · exact hmemps p h
            · rw [List.mem_singleton] at h
              subst h
              exact ⟨hqS, ht⟩
          · have hmapne : ps.map jsTrim ≠ [] := by
              intro h
              exact hps (List.map_eq_nil_iff.mp h)
            have hja : joinWith ("\n") ((ps ++ [q]).map jsTrim) =
                joinWith ("\n") (ps.map jsTrim) ++ "\n" ++ jsTrim q := by
              rw [List.map_append, List.map_singleton,
                joinWith_append_singleton ("\n") (jsTrim q) (ps.map jsTrim) hmapne]
            rcases hform with hf | hf
            · exact Or.inl (by rw [hja, ← hf])
            · refine Or.inr ?_
              rw [hja, ← String.append_assoc, ← String.append_assoc, ← hf]

/-- Every chunk of one document satisfies the chunk specification for that
document's paragraph list. -/
theorem chunksOfDoc_spec (encode : String → Nat) (maxTokens : Nat) (doc : IngDoc) :
    ∀ c ∈ chunksOfDoc encode maxTokens doc,
      ChunkSpec (splitParas doc.text) maxTokens doc.title doc.page c :=
  chunkLoop_spec encode maxTokens doc.title doc.page (splitParas doc.text)
    (splitParas doc.text) ("") (fun _ hp => hp) (Or.inl rfl)

theorem mem_splitIntoChunks (encode : String → Nat) (maxTokens : Nat)
    (documents : List IngDoc) (c : Chunk) :
    c ∈ splitIntoChunks encode documents maxTokens ↔
      ∃ doc ∈ documents, c ∈ chunksOfDoc encode maxTokens doc := by
  constructor
  · intro hc
    obtain ⟨l, hl, hcl⟩ := List.mem_flatten.mp hc
    obtain ⟨doc, hdoc, rfl⟩ := List.mem_map.mp hl
    exact ⟨doc, hdoc, hcl⟩
  · rintro ⟨doc, hdoc, hcd⟩
    exact List.mem_flatten.mpr ⟨chunksOfDoc encode maxTokens doc,
      List.mem_map.mpr ⟨doc, hdoc, rfl⟩, hcd⟩

theorem mem_pagesToDocs (name : String) :
    ∀ (pages : List String) (i : Nat) (doc : IngDoc),
      doc ∈ pagesToDocs name i pages →
      ∃ j, ∃ h : j < pages.length, doc = ⟨jsTrim (pages.get ⟨j, h⟩), name, i + j + 1⟩ := by
  intro pages
  induction pages with
  | nil => intro i doc h; simp [pagesToDocs] at h
  | cons t rest ih =>
    intro i doc h
    rcases List.mem_cons.mp h with rfl | h
    · exact ⟨0, Nat.succ_pos _, rfl⟩
    · obtain ⟨j, hj, hdoc⟩ := ih (i + 1) doc h
      refine ⟨j + 1, Nat.succ_lt_succ hj, ?_⟩
      rw [hdoc]
      have harith : i + 1 + j + 1 = i + (j + 1) + 1 := by omega
      rw [harith]
      rfl

theorem mem_readDocuments (files : List PdfFile) (doc : IngDoc) :
    doc ∈ readDocuments files →
    ∃ f ∈ files, ∃ txt, f.parsed = some txt ∧ jsEndsWith f.name (".pdf") = true ∧
      ∃ j, ∃ h : j < (splitFormFeed txt).length,
        doc = ⟨jsTrim ((splitFormFeed txt).get ⟨j, h⟩), f.name, j + 1⟩ := by
  intro hdoc
  obtain ⟨l, hl, hdl⟩ := List.mem_flatten.mp hdoc
  obtain ⟨f, hf, rfl⟩ := List.mem_map.mp hl
  refine ⟨f, hf, ?_⟩
  unfold fileToDocs at hdl
  by_cases hpdf : jsEndsWith f.name (".pdf") = true
  · rw [if_pos hpdf] at hdl
    cases hparsed : f.parsed with
    | none => rw [hparsed] at hdl; simp at hdl
    | some txt =>
      rw [hparsed] at hdl
      obtain ⟨j, hj, hdoc2⟩ := mem_pagesToDocs f.name (splitFormFeed txt) 0 _ hdl
      exact ⟨txt, rfl, hpdf, j, hj, by rw [hdoc2]; rw [Nat.zero_add]⟩
  · rw [if_neg hpdf] at hdl
    simp at hdl

section EngineLemmas

variable {R : Type} [LinearOrderedField R]

theorem mem_scanEmb (sqrtFn : R → R) (q : List R) (texts : List String)
    (metas : List ChunkMeta) :
    ∀ (embs : List (List R)) (i : Nat) (hit : Hit R),
      hit ∈ scanEmb sqrtFn q texts metas i embs ↔
      ∃ j, ∃ h : j < embs.length, (embs.get ⟨j, h⟩).length = q.length ∧
        hit = ⟨cosineSimilarity sqrtFn q (embs.get ⟨j, h⟩),
          texts.getD (i + j) (""), metas.getD (i + j) emptyMeta⟩ := by
  intro embs
  induction embs with
  | nil =>
    intro i hit
    simp [scanEmb]
  | cons emb rest ih =>
    intro i hit
    by_cases hlen : emb.length = q.length
    · rw [scanEmb, if_pos hlen]
      constructor
      · intro h
        rcases List.mem_cons.mp h with rfl | h2
        · exact ⟨0, Nat.succ_pos _, hlen, by rw [Nat.add_zero]; rfl⟩
        · obtain ⟨j, hj, hq, he⟩ := (ih (i + 1) hit).mp h2
          refine ⟨j + 1, Nat.succ_lt_succ hj, hq, ?_⟩
          rw [show i + (j + 1) = i + 1 + j from by omega]
          exact he
      · rintro ⟨j, hj, hq, he⟩
        cases j with
        | zero =>
          rw [Nat.add_zero] at he
          rw [he]
          exact List.mem_cons_self _ _
        | succ j =>
          refine List.mem_cons_of_mem _ ((ih (i + 1) hit).mpr
            ⟨j, Nat.lt_of_succ_lt_succ hj, hq, ?_⟩)
          rw [show i + 1 + j = i + (j + 1) from by omega]
          exact he
    · rw [scanEmb, if_neg hlen]
      constructor
      · intro h
        obtain ⟨j, hj, hq, he⟩ := (ih (i + 1) hit).mp h
        refine ⟨j + 1, Nat.succ_lt_succ hj, hq, ?_⟩
        rw [show i + (j + 1) = i + 1 + j from by omega]
        exact he
      · rintro ⟨j, hj, hq, he⟩
        cases j with
        | zero => exact absurd hq hlen
        | succ j =>
          refine (ih (i + 1) hit).mpr ⟨j, Nat.lt_of_succ_lt_succ hj, hq, ?_⟩
          rw [show i + 1 + j = i + (j + 1) from by omega]
          exact he

theorem mem_findSimilarContent (sqrtFn : R → R) (e : Engine R) (q : List R)
    (src : Option String) (hit : Hit R) :
    hit ∈ findSimilarContent sqrtFn e q src →
    ∃ j, ∃ h : j < e.embeddings.length, (e.embeddings.get ⟨j, h⟩).length = q.length ∧
      hit = ⟨cosineSimilarity sqrtFn q (e.embeddings.get ⟨j, h⟩),
        e.texts.getD j (""), e.chunkMetadata.getD j emptyMeta⟩ := by
  intro h
  unfold findSimilarContent at h
  by_cases hemp : e.embeddings.isEmpty = true
  · rw [if_pos hemp] at h
    simp at h
  · rw [if_neg hemp] at h
    simp only at h
    have h2 := List.mem_of_mem_take h
    rw [mem_sortJs] at h2
    have h3 : hit ∈ scanEmb sqrtFn q e.texts e.chunkMetadata 0 e.embeddings := by
      cases src with
      | none => exact h2
      | some s => exact (List.mem_filter.mp h2).1
    obtain ⟨j, hj, hq, he⟩ := (mem_scanEmb sqrtFn q e.texts e.chunkMetadata
      e.embeddings 0 hit).mp h3
    rw [Nat.zero_add] at he
    exact ⟨j, hj, hq, he⟩

theorem length_findSimilarContent (sqrtFn : R → R) (e : Engine R) (q : List R)
    (src : Option String) : (findSimilarContent sqrtFn e q src).length ≤ 5 := by
  unfold findSimilarContent
  by_cases hemp : e.embeddings.isEmpty = true
  · rw [if_pos hemp]
    exact Nat.zero_le 5
  · rw [if_neg hemp]
    simp only
    rw [List.length_take]
    exact min_le_left 5 _

theorem groupStep_skip_noSource (cat : List (String × CsvRec))
    (acc : List (String × DocGroup R)) (item : Hit R)
    (h : item.metadata.source = none) : groupStep cat acc item = acc := by
  unfold groupStep
  rw [h]

theorem length_aggregateHits (cat : List (String × CsvRec)) (hits : List (Hit R)) :
    (aggregateHits cat hits).length ≤ 2 := by
  unfold aggregateHits
  rw [List.length_map, List.length_take]
  exact min_le_left 2 _

theorem length_findRelevantContext (sqrtFn : R → R) (e : Engine R) (q : List R) :
    (findRelevantContext sqrtFn e q).length ≤ 2 := by
  unfold findRelevantContext
  by_cases hemp : (findSimilarContent sqrtFn e q none).isEmpty = true
  · rw [if_pos hemp]
    exact Nat.zero_le 2
  · rw [if_neg hemp]
    exact length_aggregateHits e.metadata (findSimilarContent sqrtFn e q none)

end EngineLemmas

section DotLemmas

variable {R : Type} [LinearOrderedField R]

theorem dotProduct_nil_left (b : List R) : dotProduct [] b = 0 := by
  simp [dotProduct]

theorem dotProduct_nil_right (a : List R) : dotProduct a [] = 0 := by
  simp [dotProduct]

theorem dotProduct_cons (x y : R) (xs ys : List R) :
    dotProduct (x :: xs) (y :: ys) = x * y + dotProduct xs ys := by
  simp [dotProduct]

theorem dotProduct_comm : ∀ a b : List R, dotProduct a b = dotProduct b a := by
  intro a
  induction a with
  | nil => intro b; rw [dotProduct_nil_left, dotProduct_nil_right]
  | cons x xs ih =>
    intro b
    cases b with
    | nil => rw [dotProduct_nil_left, dotProduct_nil_right]
    | cons y ys => rw [dotProduct_cons, dotProduct_cons, ih ys, mul_comm]

theorem dotProduct_self_nonneg (v : List R) : 0 ≤ dotProduct v v := by
  unfold dotProduct
  rw [List.zipWith_same]
  exact List.sum_nonneg (fun x hx => by
    obtain ⟨a, _, rfl⟩ := List.mem_map.mp hx
    exact mul_self_nonneg a)

theorem dotProduct_self_pos :
    ∀ v : List R, (∃ x ∈ v, x ≠ 0) → 0 < dotProduct v v := by
  intro v
  induction v with
  | nil => rintro ⟨x, hx, _⟩; simp at hx
  | cons a t ih =>
    rintro ⟨x, hx, hx0⟩
    rw [dotProduct_cons]
    rcases List.mem_cons.mp hx with rfl | hxt
    · have h1 : 0 < x * x := mul_self_pos.mpr hx0
      have h2 : 0 ≤ dotProduct t t := dotProduct_self_nonneg t
      linarith
    · have h1 : 0 < dotProduct t t := ih ⟨x, hxt, hx0⟩
      have h2 : 0 ≤ a * a := mul_self_nonneg a
      linarith

/-- Cauchy–Schwarz for the truncating list dot product. -/
theorem dotProduct_sq_le :
    ∀ a b : List R, dotProduct a b ^ 2 ≤ dotProduct a a * dotProduct b b := by
  intro a
  induction a with
  | nil =>
    intro b
    rw [dotProduct_nil_left, dotProduct_nil_left]
    simp [mul_nonneg (le_refl (0:R)) (dotProduct_self_nonneg b)]
  | cons x xs ih =>
    intro b
    cases b with
    | nil =>
      rw [dotProduct_nil_right, dotProduct_nil_right]
      simp [mul_nonneg (dotProduct_self_nonneg (x :: xs)) (le_refl (0:R))]
    | cons y ys =>
      rw [dotProduct_cons, dotProduct_cons, dotProduct_cons]
      set d := dotProduct xs ys with hd
      set A := dotProduct xs xs with hA2
      set B := dotProduct ys ys with hB2
      have hA : 0 ≤ A := dotProduct_self_nonneg xs
      have hB : 0 ≤ B := dotProduct_self_nonneg ys
      have hIH : d ^ 2 ≤ A * B := ih ys
      rcases lt_or_eq_of_le hB with hBpos | hB0
      · have key : 0 ≤ (x * B - y * d) ^ 2 + (y * y + B) * (A * B - d ^ 2) :=
          add_nonneg (sq_nonneg _)
            (mul_nonneg (add_nonneg (mul_self_nonneg y) hB) (sub_nonneg.mpr hIH))
        have key2 : B * ((x * x + A) * (y * y + B) - (x * y + d) ^ 2) =
            (x * B - y * d) ^ 2 + (y * y + B) * (A * B - d ^ 2) := by ring
        have key3 : 0 ≤ B * ((x * x + A) * (y * y + B) - (x * y + d) ^ 2) := by
          rw [key2]
          exact key
        have key4 := (mul_nonneg_iff_of_pos_left hBpos).mp key3
        linarith
      · have hBe : B = 0 := hB0.symm
        have hd2 : d ^ 2 ≤ 0 := by
          rw [hBe, mul_zero] at hIH
          exact hIH
        have hd0 : d = 0 := by
          have := sq_nonneg d
          have hdd : d ^ 2 = 0 := le_antisymm hd2 this
          exact pow_eq_zero_iff (n := 2) (by norm_num) |>.mp hdd
        rw [hBe, hd0]
        have hAy : 0 ≤ A * (y * y) := mul_nonneg hA (mul_self_nonneg y)
        nlinarith [hAy]

end DotLemmas

theorem cosineSimilarity_self (v : List ℝ) (h : ∃ x ∈ v, x ≠ 0) :
    cosineSimilarity Real.sqrt v v = JsNumR.real 1 := by
  have hpos : 0 < dotProduct v v := dotProduct_self_pos v h
  unfold cosineSimilarity
  rw [Real.mul_self_sqrt (le_of_lt hpos)]
  unfold jsDivNum
  rw [if_neg (ne_of_gt hpos), div_self (ne_of_gt hpos)]

theorem cosineSimilarity_comm {R : Type} [LinearOrderedField R]
    (sqrtFn : R → R) (a b : List R) :
    cosineSimilarity sqrtFn a b = cosineSimilarity sqrtFn b a := by
  unfold cosineSimilarity
  rw [dotProduct_comm a b, mul_comm]

/-- The cosine of two non-zero real vectors is an ordinary real in `[-1, 1]`. -/
theorem cosineSimilarity_bounds (a b : List ℝ)
    (ha : ∃ x ∈ a, x ≠ 0) (hb : ∃ x ∈ b, x ≠ 0) :
    scoreInRange (cosineSimilarity Real.sqrt a b) := by
  have hA : 0 < dotProduct a a := dotProduct_self_pos a ha
  have hB : 0 < dotProduct b b := dotProduct_self_pos b hb
  have hden : 0 < Real.sqrt (dotProduct a a) * Real.sqrt (dotProduct b b) :=
    mul_pos (Real.sqrt_pos.mpr hA) (Real.sqrt_pos.mpr hB)
  have habs : |dotProduct a b| ≤ Real.sqrt (dotProduct a a) * Real.sqrt (dotProduct b b) := by
    have h1 : |dotProduct a b| = Real.sqrt (dotProduct a b ^ 2) :=
      (Real.sqrt_sq_eq_abs (dotProduct a b)).symm
    rw [h1, ← Real.sqrt_mul (le_of_lt hA) (dotProduct b b)]
    exact Real.sqrt_le_sqrt (dotProduct_sq_le a b)
  unfold cosineSimilarity jsDivNum
  rw [if_neg (ne_of_gt hden)]
  constructor
  · rw [le_div_iff₀ hden]
    have := (abs_le.mp habs).1
    linarith
  · rw [div_le_one hden]
    exact (abs_le.mp habs).2


section SortChainLemmas

variable {α : Type}

theorem head?_insertSorted (le : α → α → Bool) (x : α) :
    ∀ l : List α, (insertSorted le x l).head? = some x ∨
      (insertSorted le x l).head? = l.head? := by
  intro l
  cases l with
  | nil => exact Or.inl rfl
  | cons z zs =>
    by_cases h : le x z = true
    · rw [insertSorted, if_pos h]
      exact Or.inl rfl
    · rw [insertSorted, if_neg h]
      exact Or.inr rfl

theorem chain'_insertSorted (le : α → α → Bool)
    (htot : ∀ a b, le a b = true ∨ le b a = true) (x : α) :
    ∀ l : List α, List.Chain' (fun a b => le a b = true) l →
      List.Chain' (fun a b => le a b = true) (insertSorted le x l) := by
  intro l
  induction l with
  | nil => intro _; exact List.chain'_singleton x
  | cons y ys ih =>
    intro h
    by_cases hxy : le x y = true
    · rw [insertSorted, if_pos hxy]
      exact List.chain'_cons.mpr ⟨hxy, h⟩
    · rw [insertSorted, if_neg hxy]
      have hys : List.Chain' (fun a b => le a b = true) ys := (List.chain'_cons'.mp h).2
      have hhead := (List.chain'_cons'.mp h).1
      refine List.chain'_cons'.mpr ⟨?_, ih hys⟩
      intro b hb
      rcases head?_insertSorted le x ys with hh | hh
      · rw [hh] at hb
        cases hb
        rcases htot x y with hc | hc
        · exact absurd hc hxy
        · exact hc
      · rw [hh] at hb
        exact hhead b hb

theorem chain'_sortJs (le : α → α → Bool)
    (htot : ∀ a b, le a b = true ∨ le b a = true) :
    ∀ l : List α, List.Chain' (fun a b => le a b = true) (sortJs le l) := by
  intro l
  induction l with
  | nil => exact List.chain'_nil
  | cons x xs ih => exact chain'_insertSorted le htot x (sortJs le xs) ih

end SortChainLemmas

section AssocListLemmas

variable {R : Type}

theorem lookupGroup_append_ne (k d : String) (hne : k ≠ d) (g : DocGroup R) :
    ∀ l : List (String × DocGroup R), lookupGroup k (l ++ [(d, g)]) = lookupGroup k l := by
  intro l
  induction l with
  | nil =>
    show (if d = k then some g else lookupGroup k []) = none
    rw [if_neg (fun h => hne h.symm)]
    rfl
  | cons p t ih =>
    show (if p.1 = k then some p.2 else lookupGroup k (t ++ [(d, g)])) =
      if p.1 = k then some p.2 else lookupGroup k t
    rw [ih]

theorem lookupGroup_append_self (k : String) (g : DocGroup R) :
    ∀ l : List (String × DocGroup R), lookupGroup k l = none →
      lookupGroup k (l ++ [(k, g)]) = some g := by
  intro l
  induction l with
  | nil =>
    intro _
    show (if k = k then some g else lookupGroup k []) = some g
    rw [if_pos rfl]
  | cons p t ih =>
    intro h
    show (if p.1 = k then some p.2 else lookupGroup k (t ++ [(k, g)])) = some g
    have h2 : (if p.1 = k then some p.2 else lookupGroup k t) = none := h
    by_cases hp : p.1 = k
    · rw [if_pos hp] at h2
      exact absurd h2 (by simp)
    · rw [if_neg hp] at h2
      rw [if_neg hp, ih h2]

theorem lookupGroup_updateGroup_self (d : String) (f : DocGroup R → DocGroup R) :
    ∀ l : List (String × DocGroup R),
      lookupGroup d (updateGroup d f l) = Option.map f (lookupGroup d l) := by
  intro l
  induction l with
  | nil => rfl
  | cons p t ih =>
    rcases p with ⟨k, g⟩
    by_cases hk : k = d
    · rw [updateGroup, if_pos hk]
      show (if k = d then some (f g) else _) = Option.map f (if k = d then some g else _)
      rw [if_pos hk, if_pos hk]
      rfl
    · rw [updateGroup, if_neg hk]
      show (if k = d then some g else lookupGroup d (updateGroup d f t)) =
        Option.map f (if k = d then some g else lookupGroup d t)
      rw [if_neg hk, if_neg hk, ih]

theorem lookupGroup_updateGroup_ne (k d : String) (hne : k ≠ d)
    (f : DocGroup R → DocGroup R) :
    ∀ l : List (String × DocGroup R),
      lookupGroup k (updateGroup d f l) = lookupGroup k l := by
  intro l
  induction l with
  | nil => rfl
  | cons p t ih =>
    rcases p with ⟨k1, g⟩
    by_cases hk : k1 = d
    · rw [updateGroup, if_pos hk]
      show (if k1 = k then some (f g) else lookupGroup k t) =
        if k1 = k then some g else lookupGroup k t
      rw [if_neg (by rw [hk]; exact fun h => hne h.symm),
        if_neg (by rw [hk]; exact fun h => hne h.symm)]
    · rw [updateGroup, if_neg hk]
      show (if k1 = k then some g else lookupGroup k (updateGroup d f t)) =
        if k1 = k then some g else lookupGroup k t
      rw [ih]

theorem lookupGroup_eq_none (k : String) :
    ∀ l : List (String × DocGroup R),
      lookupGroup k l = none ↔ k ∉ l.map Prod.fst := by
  intro l
  induction l with
  | nil => simp [lookupGroup]
  | cons p t ih =>
    rcases p with ⟨k1, g⟩
    show (if k1 = k then some g else lookupGroup k t) = none ↔ _
    by_cases hk : k1 = k
    · rw [if_pos hk]
      simp [hk]
    · rw [if_neg hk]
      simp [ih, hk, Ne.symm hk]

theorem lookupGroup_of_mem_nodup :
    ∀ l : List (String × DocGroup R), (l.map Prod.fst).Nodup →
      ∀ (k : String) (g : DocGroup R), (k, g) ∈ l → lookupGroup k l = some g := by
  intro l
  induction l with
  | nil => intro _ k g h; simp at h
  | cons p t ih =>
    rcases p with ⟨k1, g1⟩
    intro hnd k g hm
    have hnd2 : k1 ∉ t.map Prod.fst ∧ (t.map Prod.fst).Nodup := by
      rw [List.map_cons] at hnd
      exact List.nodup_cons.mp hnd
    rcases List.mem_cons.mp hm with he | hm2
    · rcases Prod.mk.injEq .. ▸ he with ⟨rfl, rfl⟩
      show (if k = k then some g else lookupGroup k t) = some g
      rw [if_pos rfl]
    · show (if k1 = k then some g1 else lookupGroup k t) = some g
      by_cases hk : k1 = k
      · exfalso
        apply hnd2.1
        rw [hk]
        exact List.mem_map.mpr ⟨(k, g), hm2, rfl⟩
      · rw [if_neg hk]
        exact ih hnd2.2 k g hm2

theorem updateGroup_keys (d : String) (f : DocGroup R → DocGroup R) :
    ∀ l : List (String × DocGroup R),
      (updateGroup d f l).map Prod.fst = l.map Prod.fst := by
  intro l
  induction l with
  | nil => rfl
  | cons p t ih =>
    rcases p with ⟨k, g⟩
    by_cases hk : k = d
    · rw [updateGroup, if_pos hk, List.map_cons, List.map_cons]
    · rw [updateGroup, if_neg hk, List.map_cons, List.map_cons, ih]

theorem mem_updateGroup (d : String) (f : DocGroup R → DocGroup R) :
    ∀ (l : List (String × DocGroup R)) (k : String) (g : DocGroup R),
      (k, g) ∈ updateGroup d f l →
      (k, g) ∈ l ∨ ∃ g0, (k, g0) ∈ l ∧ g = f g0 := by
  intro l
  induction l with
  | nil => intro k g h; simp [updateGroup] at h
  | cons p t ih =>
    rcases p with ⟨k1, g1⟩
    intro k g h
    by_cases hk : k1 = d
    · rw [updateGroup, if_pos hk] at h
      rcases List.mem_cons.mp h with he | hm
      · rcases Prod.mk.injEq .. ▸ he with ⟨rfl, rfl⟩
        exact Or.inr ⟨g1, List.mem_cons_self _ _, rfl⟩
      · exact Or.inl (List.mem_cons_of_mem _ hm)
    · rw [updateGroup, if_neg hk] at h
      rcases List.mem_cons.mp h with he | hm
      · exact Or.inl (List.mem_cons.mpr (Or.inl he))
      · rcases ih k g hm with h1 | ⟨g0, h1, h2⟩
        · exact Or.inl (List.mem_cons_of_mem _ h1)
        · exact Or.inr ⟨g0, List.mem_cons_of_mem _ h1, h2⟩

theorem mem_objectValues (l : List (String × DocGroup R)) (g : DocGroup R) :
    g ∈ objectValues l → ∃ k, (k, g) ∈ l := by
  intro hg
  unfold objectValues at hg
  obtain ⟨p, hp, hpg⟩ := List.mem_map.mp hg
  refine ⟨p.1, ?_⟩
  have hpl : p ∈ l := by
    rcases List.mem_append.mp hp with h | h
    · rw [mem_sortJs] at h
      exact (List.mem_filter.mp h).1
    · exact (List.mem_filter.mp h).1
  rw [← hpg, Prod.mk.eta]
  exact hpl

end AssocListLemmas

section AggregationLemmas

variable {R : Type} [LinearOrderedField R]

theorem groupStep_none (cat : List (String × CsvRec))
    (acc : List (String × DocGroup R)) (item : Hit R)
    (h : hitDocId item = none) : groupStep cat acc item = acc := by
  unfold hitDocId at h
  unfold groupStep
  cases hsrc : item.metadata.source with
  | none => simp only [hsrc]
  | some src =>
    simp only [hsrc] at h ⊢
    by_cases hs : src = ""
    · simp only [if_pos hs]
    · simp only [if_neg hs] at h ⊢
      simp only [h]

theorem groupStep_some_found (cat : List (String × CsvRec))
    (acc : List (String × DocGroup R)) (item : Hit R) (d : String) (g0 : DocGroup R)
    (h : hitDocId item = some d) (hlk : lookupGroup d acc = some g0) :
    groupStep cat acc item = updateGroup d (groupUpd item) acc := by
  unfold hitDocId at h
  unfold groupStep
  cases hsrc : item.metadata.source with
  | none =>
    simp only [hsrc] at h
    exact Option.noConfusion h
  | some src =>
    simp only [hsrc] at h ⊢
    by_cases hs : src = ""
    · rw [if_pos hs] at h
      simp at h
    · rw [if_neg hs] at h
      simp only [if_neg hs, h, hlk]
      rfl

theorem groupStep_some_new (cat : List (String × CsvRec))
    (acc : List (String × DocGroup R)) (item : Hit R) (d : String)
    (h : hitDocId item = some d) (hlk : lookupGroup d acc = none) :
    groupStep cat acc item = updateGroup d (groupUpd item)
      (acc ++ [(d, ⟨d, catalogName cat d, [], JsNumR.real 0⟩)]) := by
  unfold hitDocId at h
  unfold groupStep
  cases hsrc : item.metadata.source with
  | none =>
    simp only [hsrc] at h
    exact Option.noConfusion h
  | some src =>
    simp only [hsrc] at h ⊢
    by_cases hs : src = ""
    · rw [if_pos hs] at h
      simp at h
    · rw [if_neg hs] at h
      simp only [if_neg hs, h, hlk]
      rfl

/-- Invariant of `similarContent.forEach(...)`: every group in the final
accumulator is keyed by its own id and carries as `highestScore` the
`Math.max` fold (from the score stored at its key on entry, `0` for a fresh
key) over the scores of exactly the remaining hits resolving to its key. -/
theorem foldl_groupStep_spec (cat : List (String × CsvRec)) :
    ∀ (rest : List (Hit R)) (acc : List (String × DocGroup R)),
      (acc.map Prod.fst).Nodup →
      (∀ (k : String) (g : DocGroup R), (k, g) ∈ acc → g.id = k) →
      ∀ (k : String) (g : DocGroup R), (k, g) ∈ rest.foldl (groupStep cat) acc →
        g.id = k ∧
        g.highestScore =
          ((rest.filter (fun h => decide (hitDocId h = some k))).map Hit.score).foldl
            jsMax (startScore k acc) := by
  intro rest
  induction rest with
  | nil =>
    intro acc hnd hid k g hkg
    rw [List.foldl_nil] at hkg
    refine ⟨hid k g hkg, ?_⟩
    show g.highestScore = startScore k acc
    unfold startScore
    rw [lookupGroup_of_mem_nodup acc hnd k g hkg]
  | cons item rest2 ih =>
    intro acc hnd hid k g hkg
    rw [List.foldl_cons] at hkg
    cases hdoc : hitDocId item with
    | none =>
      rw [groupStep_none cat acc item hdoc] at hkg
      have h2 := ih acc hnd hid k g hkg
      refine ⟨h2.1, ?_⟩
      rw [List.filter_cons_of_neg (by simp [hdoc])]
      exact h2.2
    | some d =>
      cases hlk : lookupGroup d acc with
      | some g0 =>
        rw [groupStep_some_found cat acc item d g0 hdoc hlk] at hkg
        have hnd2 : ((updateGroup d (groupUpd item) acc).map Prod.fst).Nodup := by
          rw [updateGroup_keys]
          exact hnd
        have hid2 : ∀ (k1 : String) (g1 : DocGroup R),
            (k1, g1) ∈ updateGroup d (groupUpd item) acc → g1.id = k1 := by
          intro k1 g1 hm
          rcases mem_updateGroup d (groupUpd item) acc k1 g1 hm with hm1 | ⟨g2, hm2, rfl⟩
          · exact hid k1 g1 hm1
          · exact hid k1 g2 hm2
        have h2 := ih (updateGroup d (groupUpd item) acc) hnd2 hid2 k g hkg
        refine ⟨h2.1, ?_⟩
        by_cases hkd : k = d
        · subst hkd
          rw [List.filter_cons_of_pos (by simp [hdoc]), List.map_cons, List.foldl_cons]
          have hss : startScore k (updateGroup k (groupUpd item) acc) =
              jsMax (startScore k acc) item.score := by
            unfold startScore
            rw [lookupGroup_updateGroup_self, hlk]
            rfl
          rw [← hss]
          exact h2.2
        · rw [List.filter_cons_of_neg (by simp [hdoc]; exact fun h => hkd h.symm)]
          have hss : startScore k (updateGroup d (groupUpd item) acc) =
              startScore k acc := by
            unfold startScore
            rw [lookupGroup_updateGroup_ne k d hkd]
          rw [← hss]
          exact h2.2
      | none =>
        rw [groupStep_some_new cat acc item d hdoc hlk] at hkg
        have hdk : d ∉ acc.map Prod.fst := (lookupGroup_eq_none d acc).mp hlk
        have hnd1 : ((acc ++ [(d, (⟨d, catalogName cat d, [], JsNumR.real 0⟩ :
            DocGroup R))]).map Prod.fst).Nodup := by
          rw [List.map_append]
          refine List.Nodup.append hnd (by simp) ?_
          intro x hx hxd
          simp at hxd
          subst hxd
          exact hdk hx
        have hnd2 : ((updateGroup d (groupUpd item)
            (acc ++ [(d, ⟨d, catalogName cat d, [], JsNumR.real 0⟩)])).map
              Prod.fst).Nodup := by
          rw [updateGroup_keys]
          exact hnd1
        have hid1 : ∀ (k1 : String) (g1 : DocGroup R),
            (k1, g1) ∈ acc ++ [(d, (⟨d, catalogName cat d, [], JsNumR.real 0⟩ :
              DocGroup R))] → g1.id = k1 := by
          intro k1 g1 hm
          rcases List.mem_append.mp hm with hm1 | hm1
          · exact hid k1 g1 hm1
          · rcases Prod.mk.injEq .. ▸ List.mem_singleton.mp hm1 with ⟨rfl, rfl⟩
            rfl
        have hid2 : ∀ (k1 : String) (g1 : DocGroup R),
            (k1, g1) ∈ updateGroup d (groupUpd item)
              (acc ++ [(d, ⟨d, catalogName cat d, [], JsNumR.real 0⟩)]) →
            g1.id = k1 := by
          intro k1 g1 hm
          rcases mem_updateGroup d (groupUpd item) _ k1 g1 hm with hm1 | ⟨g2, hm2, rfl⟩
          · exact hid1 k1 g1 hm1
          · exact hid1 k1 g2 hm2
        have h2 := ih _ hnd2 hid2 k g hkg
        refine ⟨h2.1, ?_⟩
        by_cases hkd : k = d
        · subst hkd
          rw [List.filter_cons_of_pos (by simp [hdoc]), List.map_cons, List.foldl_cons]
          have hss : startScore k (updateGroup k (groupUpd item)
              (acc ++ [(k, ⟨k, catalogName cat k, [], JsNumR.real 0⟩)])) =
              jsMax (startScore k acc) item.score := by
            unfold startScore
            rw [lookupGroup_updateGroup_self,
              lookupGroup_append_self k _ acc hlk, hlk]
            rfl
          rw [← hss]
          exact h2.2
        · rw [List.filter_cons_of_neg (by simp [hdoc]; exact fun h => hkd h.symm)]
          have hss : startScore k (updateGroup d (groupUpd item)
              (acc ++ [(d, ⟨d, catalogName cat d, [], JsNumR.real 0⟩)])) =
              startScore k acc := by
            unfold startScore
            rw [lookupGroup_updateGroup_ne k d hkd,
              lookupGroup_append_ne k d hkd]
          rw [← hss]
          exact h2.2

theorem mem_aggregateHits (cat : List (String × CsvRec)) (hits : List (Hit R))
    (item : ContextItem R) :
    item ∈ aggregateHits cat hits →
    ∃ k g, (k, g) ∈ hits.foldl (groupStep cat) [] ∧ item = mkContextItem g := by
  intro hm
  unfold aggregateHits at hm
  obtain ⟨g, hg, hgi⟩ := List.mem_map.mp hm
  have hg2 := List.mem_of_mem_take hg
  rw [mem_sortJs] at hg2
  obtain ⟨k, hkg⟩ := mem_objectValues _ g hg2
  exact ⟨k, g, hkg, hgi.symm⟩

theorem jsPosQ_antisym (x y : JsNumR R) :
    jsPosQ (jsSub y x) = false ∨ jsPosQ (jsSub x y) = false := by
  cases x with
  | real a =>
    cases y with
    | real b =>
      simp only [jsSub, jsPosQ, decide_eq_false_iff_not]
      rcases le_total b a with h | h
      · exact Or.inl (by intro h2; linarith)
      · exact Or.inr (by intro h2; linarith)
    | posInf => exact Or.inr rfl
    | negInf => exact Or.inl rfl
    | nan => exact Or.inl rfl
  | posInf =>
    cases y with
    | real b => exact Or.inl rfl
    | posInf => exact Or.inl rfl
    | negInf => exact Or.inl rfl
    | nan => exact Or.inl rfl
  | negInf =>
    cases y with
    | real b => exact Or.inr rfl
    | posInf => exact Or.inr rfl
    | negInf => exact Or.inl rfl
    | nan => exact Or.inl rfl
  | nan =>
    cases y with
    | real b => exact Or.inl rfl
    | posInf => exact Or.inl rfl
    | negInf => exact Or.inl rfl
    | nan => exact Or.inl rfl

theorem groupLe_total (a b : DocGroup R) : groupLe a b = true ∨ groupLe b a = true := by
  unfold groupLe
  rw [Bool.not_eq_true', Bool.not_eq_true']
  exact jsPosQ_antisym a.highestScore b.highestScore

/-- Every emitted result's relevance score is the `Math.max` fold (from the
initial `0`) over the scores of exactly the hits resolving to its id. -/
theorem aggregateHits_score (cat : List (String × CsvRec)) (hits : List (Hit R)) :
    ∀ item ∈ aggregateHits cat hits,
      item.interview.relevanceScore = scoreFold item.interview.id hits := by
  intro item hmem
  obtain ⟨k, g, hkg, rfl⟩ := mem_aggregateHits cat hits item hmem
  have h := foldl_groupStep_spec cat hits [] (by simp)
    (by intro k1 g1 h1; simp at h1) k g hkg
  show g.highestScore = scoreFold (mkContextItem g).interview.id hits
  have hid : (mkContextItem g).interview.id = k := by
    show g.id = k
    exact h.1
  rw [hid]
  exact h.2

/-- The emitted results are ordered by relevance score descending: for each
adjacent pair the comparator `b.relevanceScore - a.relevanceScore` is not
positive. -/
theorem aggregateHits_sorted (cat : List (String × CsvRec)) (hits : List (Hit R)) :
    List.Chain' (fun a b =>
      jsPosQ (jsSub b.interview.relevanceScore a.interview.relevanceScore) = false)
      (aggregateHits cat hits) := by
  unfold aggregateHits
  rw [List.chain'_map]
  have hchain := chain'_sortJs groupLe groupLe_total
    (objectValues (hits.foldl (groupStep cat) []))
  have htake := hchain.prefix (List.take_prefix 2 _)
  refine htake.imp ?_
  intro a b hab
  show jsPosQ (jsSub b.highestScore a.highestScore) = false
  unfold groupLe at hab
  rw [Bool.not_eq_true'] at hab
  exact hab

end AggregationLemmas

-- Batteries marks the rational arithmetic operations `@[irreducible]`;
-- re-enable unfolding locally so that concrete witnesses over `ℚ` can be
-- settled by `decide` (the kernel itself is unaffected by reducibility).
attribute [local semireducible] Rat.sub Rat.add Rat.mul Rat.inv

/-! ## Claims -/

/-- C1, counterexample: when the embeddings artifact is absent or malformed
(`artifact = none`), server startup logs the rejected load and keeps the
engine with its empty initial corpus; a subsequent query then returns the
ordinary empty result set — the functions return normally, no "index
unavailable" error exists anywhere on this path. -/
theorem claim1_counterexample :
    loadEngine (R := ℚ) initialEngine none none = (initialEngine, false) ∧
    findSimilarContent idSqrt (startEngine (R := ℚ) none none) [1] none = [] ∧
    findRelevantContext idSqrt (startEngine (R := ℚ) none none) [1] = [] := by
  refine ⟨rfl, by decide, by decide⟩

/-- C1 (amended): if the embeddings artifact is absent or malformed, the
load rejects, the engine keeps its empty initial corpus, and every
subsequent query silently returns the empty result set (`findSimilarContent`
logs "No embeddings available" and returns `[]`) instead of failing with an
"index unavailable" error. -/
theorem claim1_theorem {R : Type} [LinearOrderedField R] (sqrtFn : R → R)
    (csvRecords : Option (List CsvRec)) (q : List R) (src : Option String) :
    (loadEngine (R := R) initialEngine none csvRecords).2 = false ∧
    findSimilarContent sqrtFn (startEngine (R := R) none csvRecords) q src = [] ∧
    findRelevantContext sqrtFn (startEngine (R := R) none csvRecords) q = [] := by
  have hs : startEngine (R := R) none csvRecords = initialEngine := rfl
  refine ⟨rfl, ?_, ?_⟩
  · rw [hs]
    unfold findSimilarContent
    rfl
  · rw [hs]
    unfold findRelevantContext
    have h2 : findSimilarContent sqrtFn (initialEngine (R := R)) q none = [] := by
      unfold findSimilarContent
      rfl
    rw [h2]
    rfl

/-- C1 witness: the amended theorem at a concrete failed load over `ℚ`. -/
theorem claim1_witness :
    (loadEngine (R := ℚ) initialEngine none (some [])).2 = false ∧
    findSimilarContent idSqrt (startEngine (R := ℚ) none (some [])) [2] none = [] ∧
    findRelevantContext idSqrt (startEngine (R := ℚ) none (some [])) [2] = [] :=
  claim1_theorem idSqrt (some []) [2] none

/-- C2, counterexample: on a reachable engine state, `findRelevantContext`
returns records whose only top-level field is `interview` — not flat records
with the fields `id`, `name`, `pages`, `relevanceScore`, `text`. -/
theorem claim2_counterexample :
    (findRelevantContext idSqrt demoEngine [1]).map
        (fun item => jsKeys (ContextItem.toJs item)) = [["interview"]] ∧
    ("id" ∉ (["interview"] : List String)) := by
  refine ⟨by decide, by decide⟩

/-- C2 (amended): `findRelevantContext` returns at most 2 records, but each
record is the wrapper `\x7b interview: \x7b id, name, pages, relevanceScore,
text \x7d \x7d` — the five documented fields sit one level deeper, under the
single top-level key `interview`. -/
theorem claim2_theorem {R : Type} [LinearOrderedField R] (sqrtFn : R → R)
    (e : Engine R) (q : List R) :
    (findRelevantContext sqrtFn e q).length ≤ 2 ∧
    ∀ item ∈ findRelevantContext sqrtFn e q,
      jsKeys (ContextItem.toJs item) = ["interview"] ∧
      jsKeys (Interview.toJs item.interview) =
        ["id", "name", "pages", "relevanceScore", "text"] :=
  ⟨length_findRelevantContext sqrtFn e q, fun _ _ => ⟨rfl, rfl⟩⟩

/-- C2 witness: the amended theorem at the concrete `ℚ` engine, with the
inner quantifier discharged at the record the query actually returns. -/
theorem claim2_witness :
    (findRelevantContext idSqrt demoEngine [1]).length ≤ 2 ∧
    jsKeys (ContextItem.toJs
      (⟨⟨"3", "Alice", [RangeToken.num 2], JsNumR.real 1, "hi"⟩⟩ : ContextItem ℚ)) =
      ["interview"] :=
  ⟨(claim2_theorem idSqrt demoEngine [1]).1,
    ((claim2_theorem idSqrt demoEngine [1]).2 _ (by decide)).1⟩

/-- C3, counterexample: `createPageRanges [3,4,5,7,10,11]` is not
`["3-5","7","10-11"]` — the isolated page 7 is pushed as the bare number
`7` (`ranges.push(rangeStart)`), not as the string `"7"`. -/
theorem claim3_counterexample :
    createPageRanges [3, 4, 5, 7, 10, 11] ≠
      [RangeToken.str ("3-5"), RangeToken.str ("7"), RangeToken.str ("10-11")] := by
  decide

/-- C3 (amended): the compression examples hold with isolated pages emitted
as bare numbers, consistently with the spec's own third example:
`[3,4,5,7,10,11] ↦ ["3-5", 7, "10-11"]`, `[] ↦ []`, `[9] ↦ [9]`. -/
theorem claim3_theorem :
    createPageRanges [3, 4, 5, 7, 10, 11] =
      [RangeToken.str ("3-5"), RangeToken.num 7, RangeToken.str ("10-11")] ∧
    createPageRanges [] = [] ∧
    createPageRanges [9] = [RangeToken.num 9] := by
  decide

/-- C4: for every token counter, document list and budget, an emitted chunk
either keeps its recorded token count within `maxTokens`, or it consists of
one single (trimmed) paragraph of its document — an oversized paragraph is
emitted whole, never split. -/
theorem claim4_theorem :
    ∀ (encode : String → Nat) (documents : List IngDoc) (maxTokens : Nat) (c : Chunk),
      c ∈ splitIntoChunks encode documents maxTokens →
      c.tokens ≤ maxTokens ∨
        ∃ doc ∈ documents, ∃ p ∈ splitParas doc.text, c.text = jsTrim p := by
  intro encode documents maxTokens c hc
  obtain ⟨doc, hdoc, hcd⟩ := (mem_splitIntoChunks encode maxTokens documents c).mp hc
  obtain ⟨_, _, ps, hps, hmem, _, hsize⟩ := chunksOfDoc_spec encode maxTokens doc c hcd
  rcases hsize with h | ⟨p, hp, htextp⟩
  · exact Or.inl h
  · have hpS : p ∈ splitParas doc.text := by
      have := hmem p (by rw [hp]; exact List.mem_singleton.mpr rfl)
      exact this.1
    exact Or.inr ⟨doc, hdoc, p, hpS, htextp⟩

/-- C4 witness: the theorem at a concrete two-paragraph document with the
character-count tokenizer. -/
theorem claim4_witness :
    (Chunk.mk ("aa\nbb") ("t") 3 6).tokens ≤ 500 ∨
      ∃ doc ∈ [demoDoc], ∃ p ∈ splitParas doc.text,
        (Chunk.mk ("aa\nbb") ("t") 3 6).text = jsTrim p :=
  claim4_theorem lenEncode [demoDoc] 500 _ (by decide)

/-- C5, counterexample: `highestScore` starts at `0` and is folded with
`Math.max`, so a group whose hits all score below zero is reported with
relevance `0`, not with the maximum hit score (here `-1/2`). -/
theorem claim5_counterexample :
    (aggregateHits [] [negHit]).map (fun c => c.interview.relevanceScore) =
      [JsNumR.real 0] ∧
    negHit.score = JsNumR.real (-(1:ℚ)/2) ∧
    JsNumR.real (0:ℚ) ≠ JsNumR.real (-(1:ℚ)/2) := by
  refine ⟨by decide, by decide, by decide⟩

/-- C5 (amended): for every catalog and every hit list, aggregation groups
hits by resolved document id — each emitted result's `relevanceScore` is the
`Math.max` fold, from the initial `highestScore: 0`, over the scores of
exactly the hits resolving to its id — and the emitted results are ordered
by that value descending (the comparator `b - a` is not positive on any
adjacent pair); on the spec's example — ids 3, 3, 7 with scores 0.9, 0.8,
0.95 — this yields exactly `[(7, 0.95), (3, 0.9)]`. -/
theorem claim5_theorem :
    (∀ (R : Type) [LinearOrderedField R]
      (cat : List (String × CsvRec)) (hits : List (Hit R)),
      (∀ item ∈ aggregateHits cat hits,
        item.interview.relevanceScore = scoreFold item.interview.id hits) ∧
      List.Chain' (fun a b =>
        jsPosQ (jsSub b.interview.relevanceScore a.interview.relevanceScore) = false)
        (aggregateHits cat hits)) ∧
    (aggregateHits [] exampleHits).map
        (fun c => (c.interview.id, c.interview.relevanceScore)) =
      [("7", JsNumR.real ((95:ℚ)/100)), ("3", JsNumR.real ((9:ℚ)/10))] := by
  refine ⟨?_, by decide⟩
  intro R _ cat hits
  exact ⟨aggregateHits_score cat hits, aggregateHits_sorted cat hits⟩

/-- C5 witness: the general part of the theorem at the spec's example hits,
discharged at the top-ranked result the aggregation actually emits. -/
theorem claim5_witness :
    (⟨⟨"7", "Unknown", [RangeToken.num 4], JsNumR.real ((95:ℚ)/100),
        "tC"⟩⟩ : ContextItem ℚ).interview.relevanceScore =
      scoreFold
        (⟨⟨"7", "Unknown", [RangeToken.num 4], JsNumR.real ((95:ℚ)/100),
          "tC"⟩⟩ : ContextItem ℚ).interview.id exampleHits :=
  (claim5_theorem.1 ℚ [] exampleHits).1 _ (by decide)

/-- C6: the similarity query returns at most 5 hits, and every returned hit
is scored against a stored vector whose dimensionality equals the query's. -/
theorem claim6_theorem {R : Type} [LinearOrderedField R] (sqrtFn : R → R)
    (e : Engine R) (q : List R) (src : Option String) :
    (findSimilarContent sqrtFn e q src).length ≤ 5 ∧
    ∀ hit ∈ findSimilarContent sqrtFn e q src,
      ∃ j, ∃ h : j < e.embeddings.length,
        (e.embeddings.get ⟨j, h⟩).length = q.length ∧
        hit.score = cosineSimilarity sqrtFn q (e.embeddings.get ⟨j, h⟩) := by
  refine ⟨length_findSimilarContent sqrtFn e q src, ?_⟩
  intro hit hmem
  obtain ⟨j, hj, hlen, he⟩ := mem_findSimilarContent sqrtFn e q src hit hmem
  exact ⟨j, hj, hlen, by rw [he]⟩

/-- C6 witness: the theorem at a concrete `ℚ` engine holding one matching
and one mismatching stored vector, discharged at the hit the query returns. -/
theorem claim6_witness :
    (findSimilarContent idSqrt dimEngine [4] none).length ≤ 5 ∧
    ∃ j, ∃ h : j < dimEngine.embeddings.length,
      (dimEngine.embeddings.get ⟨j, h⟩).length = ([4] : List ℚ).length ∧
      (Hit.mk (JsNumR.real ((1:ℚ)/4)) ("ha") ⟨some ("document3.pdf"), 2⟩).score =
        cosineSimilarity idSqrt [4] (dimEngine.embeddings.get ⟨j, h⟩) :=
  ⟨(claim6_theorem idSqrt dimEngine [4] none).1,
    (claim6_theorem idSqrt dimEngine [4] none).2 _ (by decide)⟩

/-- C7: the cosine of any non-zero real vector with itself is exactly `1`
in the idealised model (`≈ 1.0` in floating point), and the cosine is
symmetric on equal-length vectors. -/
theorem claim7_theorem :
    (∀ v : List ℝ, (∃ x ∈ v, x ≠ 0) →
      cosineSimilarity Real.sqrt v v = JsNumR.real 1) ∧
    (∀ a b : List ℝ, a.length = b.length →
      cosineSimilarity Real.sqrt a b = cosineSimilarity Real.sqrt b a) :=
  ⟨fun v h => cosineSimilarity_self v h,
    fun a b _ => cosineSimilarity_comm Real.sqrt a b⟩

/-- C7 witness: self-similarity of `[1]` and symmetry of `[1,2]`, `[3,4]`. -/
theorem claim7_witness :
    cosineSimilarity Real.sqrt [(1:ℝ)] [1] = JsNumR.real 1 ∧
    cosineSimilarity Real.sqrt [(1:ℝ), 2] [3, 4] =
      cosineSimilarity Real.sqrt [(3:ℝ), 4] [1, 2] :=
  ⟨claim7_theorem.1 [1] ⟨1, List.mem_singleton.mpr rfl, one_ne_zero⟩,
    claim7_theorem.2 [1, 2] [3, 4] rfl⟩

/-- C8, counterexample: a stored zero vector of matching dimensionality
yields the score `0/0 = NaN`, which is not in `[-1, 1]` (no comparison with
`NaN` holds), so the hit produced for it violates the claimed bound. -/
theorem claim8_counterexample :
    findSimilarContent Real.sqrt zeroVecEngine [1] none =
      [⟨JsNumR.nan, "", emptyMeta⟩] ∧
    ¬ scoreInRange (JsNumR.nan (R := ℝ)) := by
  constructor
  · have hcos : cosineSimilarity Real.sqrt [(1:ℝ)] [0] = JsNumR.nan := by
      unfold cosineSimilarity dotProduct jsDivNum
      norm_num [Real.sqrt_zero]
    show (findSimilarContent Real.sqrt ⟨[[0]], [], [], []⟩ [1] none) = _
    unfold findSimilarContent
    rw [if_neg (by decide)]
    simp only [scanEmb, List.length_cons, List.length_nil, List.length_singleton,
      if_pos rfl]
    rw [hcos]
    rfl
  · exact fun h => h

/-- C8 (amended): every hit produced by the similarity query carries a score
in `[-1, 1]` provided the query vector and all stored vectors are non-zero;
a zero vector (query or stored) instead produces the score `NaN` via `0/0`,
which satisfies no comparison. -/
theorem claim8_theorem (e : Engine ℝ) (q : List ℝ) (src : Option String)
    (hembs : ∀ emb ∈ e.embeddings, ∃ x ∈ emb, x ≠ 0) (hq : ∃ x ∈ q, x ≠ 0) :
    ∀ hit ∈ findSimilarContent Real.sqrt e q src, scoreInRange hit.score := by
  intro hit hmem
  obtain ⟨j, hj, _, he⟩ := mem_findSimilarContent Real.sqrt e q src hit hmem
  have hemb : e.embeddings.get ⟨j, hj⟩ ∈ e.embeddings := List.get_mem _ _ hj
  rw [he]
  exact cosineSimilarity_bounds q (e.embeddings.get ⟨j, hj⟩) hq (hembs _ hemb)

/-- C8 witness: the amended theorem at the engine storing only `[1]`,
discharged at the hit the query `[1]` returns (score exactly `1`). -/
theorem claim8_witness :
    scoreInRange ((Hit.mk (JsNumR.real (1:ℝ)) ("") emptyMeta).score) := by
  have hcos : cosineSimilarity Real.sqrt [(1:ℝ)] [1] = JsNumR.real 1 := by
    unfold cosineSimilarity dotProduct jsDivNum
    norm_num [Real.sqrt_one]
  have hmem : (Hit.mk (JsNumR.real (1:ℝ)) ("") emptyMeta) ∈
      findSimilarContent Real.sqrt unitEngine [1] none := by
    show _ ∈ findSimilarContent Real.sqrt ⟨[[1]], [], [], []⟩ [1] none
    unfold findSimilarContent
    rw [if_neg (by decide)]
    simp only [scanEmb, List.length_cons, List.length_nil, List.length_singleton,
      if_pos rfl]
    rw [hcos]
    exact List.mem_singleton.mpr rfl
  exact claim8_theorem unitEngine [1] none
    (fun emb hemb => by
      have : emb = [1] := by simpa [unitEngine] using hemb
      exact ⟨1, by rw [this]; exact List.mem_singleton.mpr rfl, one_ne_zero⟩)
    ⟨1, List.mem_singleton.mpr rfl, one_ne_zero⟩ _ hmem

/-- C9: every chunk of the ingestion pipeline comes from exactly one page of
one `.pdf` file: its source is that file's name, its page number is the
1-based index of that page in the form-feed split, and its text is built
from paragraphs of that single page's trimmed text only. -/
theorem claim9_theorem :
    ∀ (encode : String → Nat) (maxTokens : Nat) (files : List PdfFile) (c : Chunk),
      c ∈ splitIntoChunks encode (readDocuments files) maxTokens →
      ∃ f ∈ files, ∃ txt, f.parsed = some txt ∧ jsEndsWith f.name (".pdf") = true ∧
        ∃ i, ∃ h : i < (splitFormFeed txt).length,
          c.source = f.name ∧ c.page = i + 1 ∧
          BuiltFromParas (splitParas (jsTrim ((splitFormFeed txt).get ⟨i, h⟩))) c.text := by
  intro encode maxTokens files c hc
  obtain ⟨doc, hdoc, hcd⟩ :=
    (mem_splitIntoChunks encode maxTokens (readDocuments files) c).mp hc
  obtain ⟨f, hf, txt, hparsed, hpdf, j, hj, hdocj⟩ := mem_readDocuments files doc hdoc
  obtain ⟨hsource, hpage, ps, hps, hmem, htext, _⟩ :=
    chunksOfDoc_spec encode maxTokens doc c hcd
  refine ⟨f, hf, txt, hparsed, hpdf, j, hj, ?_, ?_, ?_⟩
  · rw [hsource, hdocj]
  · rw [hpage, hdocj]
  · have hdtext : doc.text = jsTrim ((splitFormFeed txt).get ⟨j, hj⟩) := by
      rw [hdocj]
    refine ⟨ps, hps, ?_, ?_⟩
    · intro p hp
      rw [← hdtext]
      exact (hmem p hp).1
    · exact htext

/-- C9 witness: the theorem at a one-file, one-page concrete input. -/
theorem claim9_witness :
    ∃ f ∈ demoFiles, ∃ txt, f.parsed = some txt ∧ jsEndsWith f.name (".pdf") = true ∧
      ∃ i, ∃ h : i < (splitFormFeed txt).length,
        (Chunk.mk ("hello") ("document1.pdf") 1 6).source = f.name ∧
        (Chunk.mk ("hello") ("document1.pdf") 1 6).page = i + 1 ∧
        BuiltFromParas (splitParas (jsTrim ((splitFormFeed txt).get ⟨i, h⟩)))
          (Chunk.mk ("hello") ("document1.pdf") 1 6).text :=
  claim9_theorem lenEncode 500 demoFiles _ (by decide)

/-- C10: out-of-range positions of the `texts`/`metadata` containers do not
break the query — the hit built for such an index gets the empty-string text
and the empty metadata record — and the aggregation's grouping step then
silently drops any hit whose metadata has no `source` field. -/
theorem claim10_theorem {R : Type} [LinearOrderedField R] :
    (∀ (sqrtFn : R → R) (q : List R) (texts : List String) (metas : List ChunkMeta)
        (embs : List (List R)) (j : Nat) (h : j < embs.length),
      (embs.get ⟨j, h⟩).length = q.length → texts.length ≤ j → metas.length ≤ j →
      Hit.mk (cosineSimilarity sqrtFn q (embs.get ⟨j, h⟩)) ("") emptyMeta ∈
        scanEmb sqrtFn q texts metas 0 embs) ∧
    (∀ (cat : List (String × CsvRec)) (acc : List (String × DocGroup R)) (item : Hit R),
      item.metadata.source = none → groupStep cat acc item = acc) := by
  constructor
  · intro sqrtFn q texts metas embs j h hlen htx hmt
    refine (mem_scanEmb sqrtFn q texts metas embs 0 _).mpr ⟨j, h, hlen, ?_⟩
    rw [Nat.zero_add, List.getD_eq_default texts ("") htx,
      List.getD_eq_default metas emptyMeta hmt]
  · intro cat acc item h
    exact groupStep_skip_noSource cat acc item h

/-- C10 witness: the theorem over `ℚ` with empty `texts`/`metadata`
containers and one stored vector, plus the grouping step dropping a
source-less hit. -/
theorem claim10_witness :
    Hit.mk (cosineSimilarity idSqrt [2] [1]) ("") emptyMeta ∈
      scanEmb idSqrt [2] [] [] 0 [[1]] ∧
    groupStep (R := ℚ) [] [] ⟨JsNumR.real 1, "", emptyMeta⟩ = [] := by
  constructor
  · exact (claim10_theorem (R := ℚ)).1 idSqrt [2] [] [] [[1]] 0
      (Nat.zero_lt_one) rfl (Nat.le_refl 0) (Nat.le_refl 0)
  · exact (claim10_theorem (R := ℚ)).2 [] [] _ rfl
